import Mathlib

/-!
# Formal model of `evalys/visu/legacy.py`

A shallow embedding, in Lean 4, of the pure computational core of the
Evalys legacy visualisation module: the job-identity resolver
(`map_unique_numbers`), the rectangle-merge loop of the processor-load
renderer (`plot_processor_load`), the per-interval rectangle generation of
the Gantt renderer (`plot_gantt`), the error dispatch of `plot_series`,
and the copy-before-mutate discipline of `plot_gantt` / `plot_job_details`.

Numeric columns (times, durations, accumulated loads) are Python floats in
the source; they are modelled as exact rationals (`Rat`), which preserves
the source's exact `!=` comparison semantics.  Draw calls are modelled by
the geometric data they receive (rectangle records); colors, alpha values
and the drawing surface itself are external collaborators and are not
modelled.
-/

namespace Evalys

/-- A row of the job table (`jobset.df`).  Only the columns the modelled
functions read are present.  `allocated_resources` is the ResourceIntervalSet:
an ordered sequence of closed integer ranges `[lo, hi]` of resource indices. -/
structure Row where
  workload_name : String
  jobID : String
  allocated_resources : List (Nat × Nat)
  submission_time : Rat := 0
  starting_time : Rat := 0
  execution_time : Rat := 0
deriving DecidableEq, Repr

/-- The member resource indices of a ResourceIntervalSet, in the order the
interval set iterates them: each closed range `[lo, hi]` contributes
`lo, lo+1, ..., hi`. -/
def members (itvs : List (Nat × Nat)) : List Nat :=
  (itvs.map (fun itv => List.range' itv.1 (itv.2 + 1 - itv.1))).flatten

/-- The ResourceIntervalSet invariant: every range is a well-formed closed
range, and consecutive ranges are sorted ascending, disjoint and
non-adjacent. -/
def ValidItvs (itvs : List (Nat × Nat)) : Prop :=
  (∀ itv ∈ itvs, itv.1 ≤ itv.2) ∧ itvs.Chain' (fun a b => a.2 + 1 < b.1)

instance (itvs : List (Nat × Nat)) : Decidable (ValidItvs itvs) :=
  inferInstanceAs (Decidable ((∀ itv ∈ itvs, itv.1 ≤ itv.2) ∧
    itvs.Chain' (fun a b : Nat × Nat => a.2 + 1 < b.1)))

/-! ## The processor-load renderer (`plot_processor_load`) -/

/-- A rectangle drawn by `_draw_rect` in `plot_processor_load`:
`mpatch.Rectangle(base, width, height)` with `base = (base_resource,
base_load)`. -/
structure Rect where
  base : Nat
  baseLoad : Rat
  width : Nat
  height : Rat
deriving DecidableEq, Repr

/-- The mutable state of the merge loop in `plot_processor_load`, for one
job: the pending rectangle origin `base = (baseproc, load[baseproc])`, its
width, the load accumulator `load`, and the rectangles drawn so far for
this job. -/
structure ScanState where
  base : Nat × Rat
  width : Nat
  load : Nat → Rat
  rects : List Rect

/-- One iteration of the `for proc in row.allocated_resources` loop of
`plot_processor_load`: if `base[0] + width != proc or load[proc] != base[1]`
the pending rectangle is drawn and a new one starts at `(proc, load[proc])`
with width 1; otherwise the width is extended; in both cases
`load[proc] += duration` afterwards. -/
def loadStep (duration : Rat) (s : ScanState) (proc : Nat) : ScanState :=
  if s.base.1 + s.width ≠ proc ∨ s.load proc ≠ s.base.2 then
    { base := (proc, s.load proc),
      width := 1,
      load := fun p => if p = proc then s.load p + duration else s.load p,
      rects := s.rects ++ [⟨s.base.1, s.base.2, s.width, duration⟩] }
  else
    { s with width := s.width + 1,
             load := fun p => if p = proc then s.load p + duration else s.load p }

/-- Processing of one job inside `plot_processor_load`: `baseproc =
next(iter(row.allocated_resources))` (`none` on an empty allocation, where
the Python iterator raises `StopIteration`), the merge loop over the job's
resource indices, and the final `if width > 0` flush.  Returns the updated
load accumulator and the rectangles drawn for this job. -/
def processJob (load : Nat → Rat) (duration : Rat) (procs : List Nat) :
    Option ((Nat → Rat) × List Rect) :=
  match procs with
  | [] => none
  | baseproc :: _ =>
    let s0 : ScanState := ⟨(baseproc, load baseproc), 0, load, []⟩
    let s := procs.foldl (loadStep duration) s0
    let rects :=
      if 0 < s.width then s.rects ++ [⟨s.base.1, s.base.2, s.width, duration⟩]
      else s.rects
    some (s.load, rects)

/-- The two exceptions the per-job scan of `plot_processor_load` can raise:
`StopIteration` from `next(iter(row.allocated_resources))` on an empty
allocation (line 366, before any dict access), and `KeyError` from
`load[...]` at a resource index outside the load dict's domain (lines 367,
370, 374, 379). -/
inductive PLError
  | stopIteration
  | keyError
deriving DecidableEq, Repr

/-- The key set of the load dict of line 359:
`range(res_bounds[0], res_bounds[1] + 1)`. -/
def loadDomain (lo hi : Nat) : List Nat := List.range' lo (hi + 1 - lo)

/-- The values of the load dict of line 359:
`load = {p: 0.0 for p in range(res_bounds[0], res_bounds[1] + 1)}` maps
every key to `0.0`.  The dict's domain restriction (a `KeyError` on any
other index) is modelled in `processRow`; on every non-raising path only
`loadDomain` indices are ever read, so the function's values outside the
domain are never consulted. -/
def initLoad (lo hi : Nat) : Nat → Rat := fun _ => 0

/-- One iteration of the `for row in jobset.df.itertuples()` loop, with the
load dict's bounded domain made explicit: an empty allocation raises
`StopIteration` at `next(iter(...))` before the dict is touched; a
non-empty allocation is scanned by the merge loop, which reads `load[p]`
at every scanned index `p` (the first of them at line 367, the rest at
lines 370/374/379), so a scan touching any index outside
`loadDomain lo hi` raises `KeyError`. -/
def processRow (lo hi : Nat) (load : Nat → Rat) (r : Row) :
    Except PLError ((Nat → Rat) × List Rect) :=
  match processJob load r.execution_time (members r.allocated_resources) with
  | none => .error .stopIteration
  | some out =>
    if ∀ p ∈ members r.allocated_resources, p ∈ loadDomain lo hi then .ok out
    else .error .keyError

/-- The `for row in jobset.df.itertuples()` loop of `plot_processor_load`:
jobs are processed in input order, the load accumulator persisting across
jobs; the first raising row aborts the render with its exception.  Returns
the final load accumulator and the per-job rectangle lists. -/
def processJobs (lo hi : Nat) (load : Nat → Rat) (rows : List Row) :
    Except PLError ((Nat → Rat) × List (List Rect)) :=
  match rows with
  | [] => .ok (load, [])
  | r :: rest =>
    (processRow lo hi load r).bind
      fun out => (processJobs lo hi out.1 rest).map
        fun out' => (out'.1, out.2 :: out'.2)

/-- The computational content of `plot_processor_load` over a jobset with
resource bounds `[lo, hi]`: the final per-resource load and the rectangles
drawn, per job, or the exception the scan raises. -/
def plot_processor_load (lo hi : Nat) (rows : List Row) :
    Except PLError ((Nat → Rat) × List (List Rect)) :=
  processJobs lo hi (initLoad lo hi) rows

/-- The resource-index span covered by one rectangle: `width` consecutive
indices starting at `base`. -/
def rectSpan (r : Rect) : List Nat := List.range' r.base r.width

/-- All resource indices covered by a list of rectangles, with multiplicity
and in drawing order. -/
def coverage (rs : List Rect) : List Nat := (rs.map rectSpan).flatten

/-- Width invariant: once the first index of a job has been scanned, the
pending width is at least 1 and every drawn rectangle has width at least 1. -/
def WidthInv (s : ScanState) : Prop :=
  1 ≤ s.width ∧ ∀ r ∈ s.rects, 1 ≤ r.width

/-! ## The Gantt renderer (`plot_gantt`) -/

/-- A rectangle built by the inner `plot_job` function of `plot_gantt`:
`mpatch.Rectangle((x0, y0), duration, y1 - y0 + 0.9)`. -/
structure GanttRect where
  x : Rat
  y : Nat
  width : Rat
  height : Rat
deriving DecidableEq, Repr

/-- The inner `plot_job` function of `plot_gantt`, restricted to the
geometry it draws: one rectangle per native interval `(y0, y1)` of the
job's interval set, at `(x0, y0)`, of width `duration` and height
`y1 - y0 + 0.9`.  When `time_scale` is set, the source converts the
starting time to a matplotlib date number and recomputes the duration as
`date2num(starting_time + execution_time) - x0`; the conversion
`matplotlib.dates.date2num ∘ to_pydatetime` is modelled by the abstract
function `date2num`. -/
def plot_job (time_scale : Bool) (date2num : Rat → Rat) (job : Row) :
    List GanttRect :=
  job.allocated_resources.map (fun itv =>
    let x0 : Rat := if time_scale then date2num job.starting_time
      else job.starting_time
    let duration : Rat :=
      if time_scale then date2num (job.starting_time + job.execution_time) - x0
      else job.execution_time
    { x := x0, y := itv.1, width := duration,
      height := (itv.2 : Rat) - (itv.1 : Rat) + 9/10 })

/-- First job of the spec's two-job scenario: resources `[0,1,2]`
(one closed range `(0, 2)`), duration 5. -/
def demoRow1 : Row :=
  { workload_name := "w", jobID := "j1", allocated_resources := [(0, 2)],
    execution_time := 5 }

/-- Second job of the spec's two-job scenario: resources `[1,2]`
(one closed range `(1, 2)`), duration 3. -/
def demoRow2 : Row :=
  { workload_name := "w", jobID := "j2", allocated_resources := [(1, 2)],
    execution_time := 3 }

/-! ## The job identity resolver (`map_unique_numbers`) -/

/-- The dictionary key `full_job_id = workload_name + "!" + jobID` built by
`map_unique_numbers` (both fields stringified in the source). -/
def fullKey (r : Row) : String := r.workload_name ++ "!" ++ r.jobID

/-- The loop state of `map_unique_numbers`: `number_counter`, the insertion
ordered dicts `numbers_map` and `jobs_for_unique_number` (modelled as
association lists, matching Python dict insertion order), and the
`unique_numbers` output list.  The source stores `(index, row)` pairs in
`jobs_for_unique_number`, of which only the index is ever read, so the
model stores the indices. -/
structure MUNState where
  counter : Nat
  numbersMap : List (String × Nat)
  jobsFor : List (String × List Nat)
  uniqueNumbers : List Nat
deriving DecidableEq, Repr

/-- Append `pos` to the list stored under key `k`: Python's
`list_of_jobs.append(...)` mutates the list object shared with the dict. -/
def appendAssoc (m : List (String × List Nat)) (k : String) (pos : Nat) :
    List (String × List Nat) :=
  m.map (fun kv => if kv.1 = k then (kv.1, kv.2 ++ [pos]) else kv)

/-- One iteration of the `for index, row in df.iterrows()` loop of
`map_unique_numbers`: a known key re-uses its number, a new key takes the
counter and bumps it; rows with a truthy (non-empty) allocation are appended
to their key's candidate list; the unique number is appended to the output
either way. -/
def munStep (s : MUNState) (ir : Nat × Row) : MUNState :=
  match s.numbersMap.lookup (fullKey ir.2) with
  | some n =>
    { s with
      jobsFor :=
        if ir.2.allocated_resources ≠ [] then
          appendAssoc s.jobsFor (fullKey ir.2) ir.1
        else s.jobsFor,
      uniqueNumbers := s.uniqueNumbers ++ [n] }
  | none =>
    { counter := s.counter + 1,
      numbersMap := s.numbersMap ++ [(fullKey ir.2, s.counter)],
      jobsFor := s.jobsFor ++
        [(fullKey ir.2, if ir.2.allocated_resources ≠ [] then [ir.1] else [])],
      uniqueNumbers := s.uniqueNumbers ++ [s.counter] }

/-- The function `map_unique_numbers(df)`: the scan over the enumerated rows followed by
the label-selection pass `v[len(v) // 2]` over `jobs_for_unique_number`.
Returns `(labeled_jobs, unique_numbers)`; the labeled positions are listed
in dict-iteration (first-occurrence) order — the source collects them in a
Python set, whose contents they are. -/
def map_unique_numbers (rows : List Row) : List Nat × List Nat :=
  let s := rows.enum.foldl munStep ⟨1, [], [], []⟩
  (s.jobsFor.filterMap (fun kv =>
      if kv.2 ≠ [] then some (kv.2.getD (kv.2.length / 2) 0) else none),
    s.uniqueNumbers)

/-- First-occurrence-order deduplication of a key list (specification-side
description of Python dict key order). -/
def dedupFirst (keys : List String) : List String :=
  keys.foldl (fun acc k => if k ∈ acc then acc else acc ++ [k]) []

/-- The unique number belonging to key `k` of `keys`: one plus the position
of `k` in the first-occurrence-ordered distinct keys (so newly seen keys
receive 1, 2, 3, … in first-occurrence order). -/
def specNumber (keys : List String) (k : String) : Nat :=
  (dedupFirst keys).indexOf k + 1

/-- The positions (in input order) of the occurrences of an enumerated row
list that carry key `k` and have a non-empty allocation: the group's
label-candidate list. -/
def allocPosE (E : List (Nat × Row)) (k : String) : List Nat :=
  (E.filter (fun ir =>
    fullKey ir.2 == k && !ir.2.allocated_resources.isEmpty)).map Prod.fst

/-- The label-candidate list of key `k` in a job table. -/
def allocatedPositions (rows : List Row) (k : String) : List Nat :=
  allocPosE rows.enum k

/-- The keys of an enumerated row list, in order. -/
def keysOf (E : List (Nat × Row)) : List String := E.map (fun ir => fullKey ir.2)

/-! ## `plot_series` -/

/-- The module's `available_series` list. -/
def available_series : List String := ["bonded_slowdown", "waiting_time", "all"]

/-- The two Python exception types `plot_series` can raise:
`AttributeError` for a series type outside `available_series`,
`RuntimeError` for a recognised series type that is not implemented. -/
inductive PyError
  | attributeError
  | runtimeError
deriving DecidableEq, Repr

/-- The control flow of `plot_series`: an unknown series type raises
`AttributeError` before anything is drawn; `"waiting_time"` draws one
series per jobset (modelled by returning the jobset names whose series are
plotted); any other recognised type raises `RuntimeError` (the source's
`'The serie ... is not implemeted yet'`), also before anything is drawn. -/
def plot_series (series_type : String) (jobsets : List String) :
    Except PyError (List String) :=
  if series_type ∉ available_series then .error .attributeError
  else if series_type = "waiting_time" then .ok jobsets
  else .error .runtimeError

/-! ## Copy-before-mutate discipline (`plot_gantt`, `plot_job_details`)

Dataframes are mutable heap objects in the source; a store (a list of
tables addressed by index) models the heap, `df.copy()` allocates a fresh
cell holding the same value, and every later mutation writes to the fresh
cell. -/

/-- The dataframe state handled by `plot_gantt`: the job rows plus the
`unique_number` column the renderer adds (absent in the caller's table). -/
structure GanttTable where
  rows : List Row
  unique_number : Option (List Nat) := none
deriving DecidableEq, Repr

/-- Line 120: `df["unique_number"] = unique_numbers`. -/
def gantt_add_unique (t : GanttTable) : GanttTable :=
  { t with unique_number := some (map_unique_numbers t.rows).2 }

/-- The `time_scale` rescaling of lines 122-125: `pd.to_datetime(·, unit="s")`
on the two time columns and `pd.to_timedelta(·, unit="s")` on the duration
column, modelled by abstract encodings `d2n` and `td`. -/
def gantt_rescale (d2n td : Rat → Rat) (t : GanttTable) : GanttTable :=
  { t with rows := t.rows.map (fun r =>
      { r with submission_time := d2n r.submission_time,
               starting_time := d2n r.starting_time,
               execution_time := td r.execution_time }) }

/-- Lines 118-125 of `plot_gantt` as a heap transformer:
`df = jobset.df.copy()` allocates a fresh cell with the caller's table
value, then the `unique_number` column and (under `time_scale`) the
rescaled time columns are written to that fresh cell.  Returns the new
store and the copy's address. -/
def plot_gantt_df_prep (time_scale : Bool) (d2n td : Rat → Rat)
    (store : List GanttTable) (ref : Nat) : List GanttTable × Nat :=
  let df := store.getD ref ⟨[], none⟩
  let store1 := store ++ [df]
  let copyRef := store.length
  let store2 := store1.set copyRef (gantt_add_unique df)
  let store3 :=
    if time_scale then
      store2.set copyRef (gantt_rescale d2n td (gantt_add_unique df))
    else store2
  (store3, copyRef)

/-- A row of the dataframe handled by `plot_job_details`. -/
structure JDRow where
  jobID : String
  submission_time : Rat
  waiting_time : Rat
  execution_time : Rat
  starting_time : Rat := 0
  finish_time : Rat := 0
  proc_alloc : Rat := 0
deriving DecidableEq, Repr

/-- Insertion step of the jobID sort. -/
def insertByJobID (r : JDRow) : List JDRow → List JDRow
  | [] => [r]
  | x :: xs => if r.jobID < x.jobID then r :: x :: xs else x :: insertByJobID r xs

/-- Line 506: `df.sort_values(by="jobID")` builds a new frame sorted by
`jobID` (insertion sort; the sort algorithm itself is irrelevant to the
claims about this function). -/
def sortByJobID (df : List JDRow) : List JDRow :=
  df.foldr insertByJobID []

/-- Lines 508-510: the derived time columns, on a rational timeline —
`submission_time += time_offset`, `starting_time = submission_time +
waiting_time`, `finish_time = starting_time + execution_time`. -/
def jd_columns (time_offset : Rat) (df : List JDRow) : List JDRow :=
  df.map (fun r =>
    let sub := r.submission_time + time_offset
    { r with submission_time := sub,
             starting_time := sub + r.waiting_time,
             finish_time := sub + r.waiting_time + r.execution_time })

/-- Lines 504-510 of `plot_job_details` as a heap transformer:
`df = pd.DataFrame.copy(dataframe)` allocates a fresh cell;
`df = df.sort_values(by="jobID")` binds `df` to yet another new frame
(pandas returns a new object); the three column assignments write to that
frame's cell.  Returns the new store and the final frame's address. -/
def plot_job_details_df_prep (time_offset : Rat)
    (store : List (List JDRow)) (ref : Nat) : List (List JDRow) × Nat :=
  let df := store.getD ref []
  let store1 := store ++ [df]
  let store2 := store1 ++ [sortByJobID df]
  let sortedRef := store1.length
  let store3 := store2.set sortedRef (jd_columns time_offset (sortByJobID df))
  (store3, sortedRef)

/-! ## Concrete rows used in scenarios, witnesses and counterexamples -/

/-- A row whose workload name itself contains the `"!"` separator. -/
def bangRow1 : Row :=
  { workload_name := "a!b", jobID := "c", allocated_resources := [(0, 0)] }

/-- A row with a different `(workload_name, jobID)` pair whose concatenated
key collides with that of `bangRow1`. -/
def bangRow2 : Row :=
  { workload_name := "a", jobID := "b!c", allocated_resources := [(1, 1)] }

/-- A sample row for the `plot_job_details` store witness. -/
def jdRow0 : JDRow :=
  { jobID := "j", submission_time := 2, waiting_time := 1, execution_time := 4 }

/-! ### Basic lemmas about the merge loop -/

/-- The load update of one loop iteration: `load[proc] += duration`,
irrespective of the merge decision. -/
theorem loadStep_load (d : Rat) (s : ScanState) (proc p : Nat) :
    (loadStep d s proc).load p = if p = proc then s.load p + d else s.load p := by
  unfold loadStep
  split <;> rfl

/-- When the pending rectangle cannot extend (the resource index is not the
next contiguous one, or its accumulated load differs), the pending rectangle
is drawn and a fresh one starts at `(proc, load[proc])` with width 1. -/
theorem loadStep_break (d : Rat) (s : ScanState) (proc : Nat)
    (h : s.base.1 + s.width ≠ proc ∨ s.load proc ≠ s.base.2) :
    (loadStep d s proc).rects = s.rects ++ [⟨s.base.1, s.base.2, s.width, d⟩] ∧
      (loadStep d s proc).base = (proc, s.load proc) ∧
      (loadStep d s proc).width = 1 := by
  unfold loadStep
  rw [if_pos h]
  exact ⟨rfl, rfl, rfl⟩

/-- When the pending rectangle can extend (contiguous index with an exactly
equal accumulated load), no rectangle is drawn and the width grows by 1. -/
theorem loadStep_extend (d : Rat) (s : ScanState) (proc : Nat)
    (h1 : s.base.1 + s.width = proc) (h2 : s.load proc = s.base.2) :
    (loadStep d s proc).rects = s.rects ∧
      (loadStep d s proc).base = s.base ∧
      (loadStep d s proc).width = s.width + 1 := by
  unfold loadStep
  rw [if_neg (by push_neg; exact ⟨h1, h2⟩)]
  exact ⟨rfl, rfl, rfl⟩

theorem coverage_append (rs rs' : List Rect) :
    coverage (rs ++ rs') = coverage rs ++ coverage rs' := by
  simp [coverage]

theorem coverage_nil : coverage [] = [] := rfl

theorem coverage_singleton (r : Rect) :
    coverage [r] = List.range' r.base r.width := by
  simp [coverage, rectSpan]

/-- One loop iteration extends the combined coverage (drawn rectangles plus
the pending one) by exactly the processed resource index. -/
theorem loadStep_coverage (d : Rat) (s : ScanState) (proc : Nat) :
    coverage (loadStep d s proc).rects ++
        List.range' (loadStep d s proc).base.1 (loadStep d s proc).width =
      coverage s.rects ++ List.range' s.base.1 s.width ++ [proc] := by
  unfold loadStep
  split
  · simp [coverage_append, coverage, rectSpan]
  · rename_i h
    push_neg at h
    obtain ⟨h1, h2⟩ := h
    have : List.range' s.base.1 (s.width + 1) =
        List.range' s.base.1 s.width ++ [s.base.1 + 1 * s.width] :=
      List.range'_concat s.base.1 s.width
    simp only [one_mul] at this
    simp [this, h1]

/-- Coverage invariant of the whole merge loop. -/
theorem foldl_loadStep_coverage (d : Rat) (procs : List Nat) (s : ScanState) :
    coverage (procs.foldl (loadStep d) s).rects ++
        List.range' (procs.foldl (loadStep d) s).base.1
          (procs.foldl (loadStep d) s).width =
      coverage s.rects ++ List.range' s.base.1 s.width ++ procs := by
  induction procs generalizing s with
  | nil => simp
  | cons p t ih =>
    rw [List.foldl_cons, ih (loadStep d s p), loadStep_coverage]
    simp

/-- Load invariant of the whole merge loop: each resource gains `duration`
once per occurrence in the scanned index list. -/
theorem foldl_loadStep_load (d : Rat) (procs : List Nat) (s : ScanState) (p : Nat) :
    (procs.foldl (loadStep d) s).load p = s.load p + d * procs.count p := by
  induction procs generalizing s with
  | nil => simp
  | cons q t ih =>
    rw [List.foldl_cons, ih (loadStep d s q), loadStep_load]
    by_cases h : p = q
    · subst h
      simp [List.count_cons_self]
      ring
    · simp [List.count_cons_of_ne h, h]

theorem loadStep_widthInv (d : Rat) (s : ScanState) (proc : Nat)
    (h : WidthInv s) : WidthInv (loadStep d s proc) := by
  obtain ⟨hw, hr⟩ := h
  unfold loadStep WidthInv
  split
  · refine ⟨le_refl 1, ?_⟩
    intro r hmem
    rcases List.mem_append.mp hmem with h' | h'
    · exact hr r h'
    · simp only [List.mem_singleton] at h'
      subst h'
      exact hw
  · exact ⟨Nat.le_succ_of_le hw, hr⟩

theorem foldl_loadStep_widthInv (d : Rat) (procs : List Nat) (s : ScanState)
    (h : WidthInv s) : WidthInv (procs.foldl (loadStep d) s) := by
  induction procs generalizing s with
  | nil => exact h
  | cons p t ih => exact ih _ (loadStep_widthInv d s p h)

/-- The first loop iteration of a job always extends: the initial pending
rectangle starts exactly at the first index with its current load. -/
theorem loadStep_first (d : Rat) (load : Nat → Rat) (baseproc : Nat) :
    loadStep d ⟨(baseproc, load baseproc), 0, load, []⟩ baseproc =
      ⟨(baseproc, load baseproc), 1,
        fun p => if p = baseproc then load p + d else load p, []⟩ := by
  unfold loadStep
  rw [if_neg (by push_neg; exact ⟨rfl, rfl⟩)]

/-- The function `processJob` succeeds exactly on a non-empty allocation. -/
theorem processJob_isSome_iff (load : Nat → Rat) (d : Rat) (procs : List Nat) :
    (processJob load d procs).isSome ↔ procs ≠ [] := by
  cases procs <;> simp [processJob]

/-- The load accumulator returned by `processJob`. -/
theorem processJob_load (load load' : Nat → Rat) (d : Rat) (procs : List Nat)
    (rects : List Rect) (h : processJob load d procs = some (load', rects))
    (p : Nat) : load' p = load p + d * procs.count p := by
  cases procs with
  | nil => simp [processJob] at h
  | cons q t =>
    unfold processJob at h
    simp only [Option.some.injEq, Prod.mk.injEq] at h
    obtain ⟨h1, _⟩ := h
    rw [← h1, foldl_loadStep_load]

/-- The rectangles `processJob` draws for one job cover, in order and with
multiplicity, exactly the scanned resource indices. -/
theorem processJob_coverage (load load' : Nat → Rat) (d : Rat) (procs : List Nat)
    (rects : List Rect) (h : processJob load d procs = some (load', rects)) :
    coverage rects = procs := by
  cases procs with
  | nil => simp [processJob] at h
  | cons q t =>
    unfold processJob at h
    simp only [Option.some.injEq, Prod.mk.injEq] at h
    obtain ⟨_, h2⟩ := h
    set S := List.foldl (loadStep d) ⟨(q, load q), 0, load, []⟩ (q :: t) with hS
    have hcov : coverage S.rects ++ List.range' S.base.1 S.width = q :: t := by
      have h0 := foldl_loadStep_coverage d (q :: t) ⟨(q, load q), 0, load, []⟩
      rw [← hS] at h0
      simpa [coverage_nil] using h0
    rw [← h2]
    split
    · rw [coverage_append, coverage_singleton]
      exact hcov
    · rename_i hw
      have hw0 : S.width = 0 := by omega
      rw [hw0, List.range'_zero, List.append_nil] at hcov
      exact hcov

/-- Every rectangle `processJob` draws has width at least 1. -/
theorem processJob_widths (load load' : Nat → Rat) (d : Rat) (procs : List Nat)
    (rects : List Rect) (h : processJob load d procs = some (load', rects)) :
    ∀ r ∈ rects, 1 ≤ r.width := by
  cases procs with
  | nil => simp [processJob] at h
  | cons q t =>
    unfold processJob at h
    simp only [List.foldl_cons] at h
    rw [loadStep_first] at h
    have hinv : WidthInv (List.foldl (loadStep d)
        ⟨(q, load q), 1, fun p => if p = q then load p + d else load p, []⟩ t) :=
      foldl_loadStep_widthInv d t _ ⟨le_refl 1, by simp⟩
    obtain ⟨hw, hr⟩ := hinv
    simp only [Option.some.injEq, Prod.mk.injEq] at h
    obtain ⟨_, h2⟩ := h
    rw [← h2]
    split
    · intro r hmem
      rcases List.mem_append.mp hmem with h' | h'
      · exact hr r h'
      · simp only [List.mem_singleton] at h'
        subst h'
        exact hw
    · exact hr

theorem mem_loadDomain (lo hi p : Nat) :
    p ∈ loadDomain lo hi ↔ lo ≤ p ∧ p ≤ hi := by
  unfold loadDomain
  rw [List.mem_range'_1]
  omega

/-- A row with an empty allocation raises `StopIteration` before the load
dict is touched. -/
theorem processRow_stopIteration (lo hi : Nat) (load : Nat → Rat) (r : Row)
    (h : members r.allocated_resources = []) :
    processRow lo hi load r = .error .stopIteration := by
  unfold processRow
  rw [h]
  rfl

/-- A row with a non-empty, in-bounds allocation is processed by the merge
loop. -/
theorem processRow_ok (lo hi : Nat) (load : Nat → Rat) (r : Row)
    (hne : members r.allocated_resources ≠ [])
    (hb : ∀ p ∈ members r.allocated_resources, p ∈ loadDomain lo hi) :
    ∃ out, processRow lo hi load r = .ok out ∧
      processJob load r.execution_time (members r.allocated_resources) =
        some out := by
  have hs := (processJob_isSome_iff load r.execution_time
    (members r.allocated_resources)).mpr hne
  obtain ⟨out, hout⟩ := Option.isSome_iff_exists.mp hs
  refine ⟨out, ?_, hout⟩
  unfold processRow
  simp only [hout]
  rw [if_pos hb]

/-- Conversely, a row scan that returns normally is exactly a merge-loop
run. -/
theorem processRow_eq_ok (lo hi : Nat) (load : Nat → Rat) (r : Row)
    (out : (Nat → Rat) × List Rect) (h : processRow lo hi load r = .ok out) :
    processJob load r.execution_time (members r.allocated_resources) =
      some out := by
  unfold processRow at h
  cases hj : processJob load r.execution_time (members r.allocated_resources) with
  | none => rw [hj] at h; simp at h
  | some out' =>
    simp only [hj] at h
    split at h
    · simp only [Except.ok.injEq] at h
      rw [h]
    · simp at h

/-- The function `processJobs` raises `StopIteration` when some job's
allocation is empty, provided every allocation stays inside the load
dict's domain (otherwise an earlier out-of-bounds row could raise
`KeyError` first). -/
theorem processJobs_stopIteration (lo hi : Nat) (load : Nat → Rat)
    (rows : List Row)
    (hb : ∀ r ∈ rows, ∀ p ∈ members r.allocated_resources,
      p ∈ loadDomain lo hi)
    (h : ∃ r ∈ rows, members r.allocated_resources = []) :
    processJobs lo hi load rows = .error .stopIteration := by
  induction rows generalizing load with
  | nil => simp at h
  | cons r rest ih =>
    obtain ⟨r', hr', hempty⟩ := h
    unfold processJobs
    by_cases hre : members r.allocated_resources = []
    · rw [processRow_stopIteration lo hi load r hre]
      rfl
    · rcases List.mem_cons.mp hr' with h' | h'
      · exact absurd (h' ▸ hempty) hre
      · obtain ⟨out, hok, _⟩ := processRow_ok lo hi load r hre
          (hb r (List.mem_cons_self r rest))
        rw [hok]
        simp only [Except.bind]
        rw [ih out.1 (fun r'' hr'' => hb r'' (List.mem_cons_of_mem r hr''))
          ⟨r', h', hempty⟩]
        rfl

/-- The function `processJobs` returns normally when every job's allocation
is non-empty and inside the load dict's domain. -/
theorem processJobs_ok (lo hi : Nat) (load : Nat → Rat) (rows : List Row)
    (hne : ∀ r ∈ rows, members r.allocated_resources ≠ [])
    (hb : ∀ r ∈ rows, ∀ p ∈ members r.allocated_resources,
      p ∈ loadDomain lo hi) :
    ∃ out, processJobs lo hi load rows = .ok out := by
  induction rows generalizing load with
  | nil => exact ⟨(load, []), rfl⟩
  | cons r rest ih =>
    obtain ⟨out, hok, _⟩ := processRow_ok lo hi load r
      (hne r (List.mem_cons_self r rest)) (hb r (List.mem_cons_self r rest))
    obtain ⟨out', hout'⟩ := ih out.1
      (fun r' hr' => hne r' (List.mem_cons_of_mem r hr'))
      (fun r' hr' => hb r' (List.mem_cons_of_mem r hr'))
    refine ⟨(out'.1, out.2 :: out'.2), ?_⟩
    unfold processJobs
    rw [hok]
    simp only [Except.bind]
    rw [hout']
    rfl

/-- Final load accumulator of `processJobs`: each resource gains, per job,
the job's duration once per occurrence of the resource in the job's scanned
index list. -/
theorem processJobs_load (lo hi : Nat) (load lf : Nat → Rat) (rows : List Row)
    (rss : List (List Rect))
    (h : processJobs lo hi load rows = .ok (lf, rss)) (p : Nat) :
    lf p = load p +
      (rows.map (fun r =>
        r.execution_time * ((members r.allocated_resources).count p : Rat))).sum := by
  induction rows generalizing load rss with
  | nil =>
    unfold processJobs at h
    simp only [Except.ok.injEq, Prod.mk.injEq] at h
    rw [← h.1]
    simp
  | cons r rest ih =>
    unfold processJobs at h
    cases hrow : processRow lo hi load r with
    | error e => rw [hrow] at h; simp [Except.bind] at h
    | ok out =>
      rw [hrow] at h
      simp only [Except.bind] at h
      cases hrest : processJobs lo hi out.1 rest with
      | error e => rw [hrest] at h; simp [Except.map] at h
      | ok out' =>
        rw [hrest] at h
        simp only [Except.map, Except.ok.injEq, Prod.mk.injEq] at h
        obtain ⟨h1, _⟩ := h
        have hload := processJob_load load out.1 r.execution_time
          (members r.allocated_resources) out.2
          (processRow_eq_ok lo hi load r out hrow) p
        have hrec := ih out.1 out'.2 (by rw [hrest, ← h1])
        rw [hrec, hload]
        simp [add_assoc]

/-! ### The ResourceIntervalSet contract -/

/-- Membership in the iterated resource indices is exactly membership in one
of the closed ranges. -/
theorem mem_members (itvs : List (Nat × Nat)) (x : Nat) :
    x ∈ members itvs ↔ ∃ itv ∈ itvs, itv.1 ≤ x ∧ x ≤ itv.2 := by
  induction itvs with
  | nil => simp [members]
  | cons itv rest ih =>
    simp only [members, List.map_cons, List.flatten_cons, List.mem_append,
      List.mem_cons]
    rw [show ((rest.map (fun itv => List.range' itv.1 (itv.2 + 1 - itv.1))).flatten)
        = members rest from rfl, ih, List.mem_range'_1]
    constructor
    · rintro (hx | ⟨itv', h1, h2⟩)
      · exact ⟨itv, Or.inl rfl, by omega⟩
      · exact ⟨itv', Or.inr h1, h2⟩
    · rintro ⟨itv', h1 | h1, h2⟩
      · subst h1
        exact Or.inl (by omega)
      · exact Or.inr ⟨itv', h1, h2⟩

theorem members_lb (itvs : List (Nat × Nat)) (b : Nat)
    (h : ∀ itv ∈ itvs, b ≤ itv.1) : ∀ x ∈ members itvs, b ≤ x := by
  intro x hx
  obtain ⟨itv, h1, h2, _⟩ := (mem_members itvs x).mp hx
  exact le_trans (h itv h1) h2

theorem validItvs_tail (itv : Nat × Nat) (rest : List (Nat × Nat))
    (h : ValidItvs (itv :: rest)) : ValidItvs rest :=
  ⟨fun i hi => h.1 i (List.mem_cons_of_mem itv hi), (List.chain'_cons'.mp h.2).2⟩

theorem validItvs_tail_lb (lo hi : Nat) (rest : List (Nat × Nat))
    (h : ValidItvs ((lo, hi) :: rest)) : ∀ itv ∈ rest, hi + 1 < itv.1 := by
  induction rest generalizing lo hi with
  | nil => simp
  | cons itv2 rest2 ih =>
    intro itv hmem
    have hchain := h.2
    rw [List.chain'_cons] at hchain
    rcases List.mem_cons.mp hmem with h' | h'
    · subst h'
      exact hchain.1
    · have hvalid2 : ValidItvs ((itv2.1, itv2.2) :: rest2) := by
        simpa using validItvs_tail (lo, hi) (itv2 :: rest2) h
      have h2 := ih itv2.1 itv2.2 hvalid2 itv h'
      have hle : itv2.1 ≤ itv2.2 := h.1 itv2 (by simp)
      have := hchain.1
      omega

/-- Under the ResourceIntervalSet invariant, the iterated member indices are
pairwise distinct. -/
theorem members_nodup (itvs : List (Nat × Nat)) (h : ValidItvs itvs) :
    (members itvs).Nodup := by
  induction itvs with
  | nil => simp [members]
  | cons itv rest ih =>
    obtain ⟨lo, hi⟩ := itv
    have heq : members ((lo, hi) :: rest) =
        List.range' lo (hi + 1 - lo) ++ members rest := by
      simp [members]
    rw [heq, List.nodup_append]
    refine ⟨(List.pairwise_lt_range' lo (hi + 1 - lo)).nodup,
      ih (validItvs_tail (lo, hi) rest h), ?_⟩
    intro x hx hx'
    obtain ⟨h1a, h1b⟩ := List.mem_range'_1.mp hx
    have h2 : hi + 2 ≤ x := by
      refine members_lb rest (hi + 2) ?_ x hx'
      intro itv hitv
      have := validItvs_tail_lb lo hi rest h itv hitv
      omega
    omega

/-! ### Lemmas about the job identity resolver -/

theorem mem_dedupFirst_foldl (l acc : List String) (a : String) :
    a ∈ l.foldl (fun acc k => if k ∈ acc then acc else acc ++ [k]) acc ↔
      a ∈ acc ∨ a ∈ l := by
  induction l generalizing acc with
  | nil => simp
  | cons x t ih =>
    rw [List.foldl_cons, ih]
    by_cases hx : x ∈ acc
    · rw [if_pos hx]
      simp only [List.mem_cons]
      constructor
      · rintro (h | h)
        · exact Or.inl h
        · exact Or.inr (Or.inr h)
      · rintro (h | h | h)
        · exact Or.inl h
        · exact Or.inl (h ▸ hx)
        · exact Or.inr h
    · rw [if_neg hx]
      simp only [List.mem_append, List.mem_singleton, List.mem_cons]
      tauto

theorem mem_dedupFirst (keys : List String) (a : String) :
    a ∈ dedupFirst keys ↔ a ∈ keys := by
  rw [dedupFirst, mem_dedupFirst_foldl]
  simp

theorem dedupFirst_nodup_foldl (l acc : List String) (h : acc.Nodup) :
    (l.foldl (fun acc k => if k ∈ acc then acc else acc ++ [k]) acc).Nodup := by
  induction l generalizing acc with
  | nil => exact h
  | cons x t ih =>
    rw [List.foldl_cons]
    by_cases hx : x ∈ acc
    · rw [if_pos hx]
      exact ih acc h
    · rw [if_neg hx]
      refine ih _ ?_
      rw [List.nodup_append]
      refine ⟨h, List.nodup_singleton x, ?_⟩
      intro b hb hbx
      rw [List.mem_singleton] at hbx
      exact hx (hbx ▸ hb)

theorem dedupFirst_nodup (keys : List String) : (dedupFirst keys).Nodup :=
  dedupFirst_nodup_foldl keys [] List.nodup_nil

theorem dedupFirst_concat (keys : List String) (k : String) :
    dedupFirst (keys ++ [k]) =
      if k ∈ keys then dedupFirst keys else dedupFirst keys ++ [k] := by
  rw [dedupFirst, List.foldl_append, List.foldl_cons, List.foldl_nil]
  rw [show List.foldl (fun acc k => if k ∈ acc then acc else acc ++ [k]) [] keys
      = dedupFirst keys from rfl]
  by_cases hk : k ∈ keys
  · rw [if_pos ((mem_dedupFirst keys k).mpr hk), if_pos hk]
  · rw [if_neg (fun h => hk ((mem_dedupFirst keys k).mp h)), if_neg hk]

theorem dedupFirst_foldl_extend (l acc : List String) :
    ∃ e, l.foldl (fun acc k => if k ∈ acc then acc else acc ++ [k]) acc =
      acc ++ e := by
  induction l generalizing acc with
  | nil => exact ⟨[], by simp⟩
  | cons x t ih =>
    rw [List.foldl_cons]
    by_cases hx : x ∈ acc
    · rw [if_pos hx]
      exact ih acc
    · rw [if_neg hx]
      obtain ⟨e, he⟩ := ih (acc ++ [x])
      exact ⟨[x] ++ e, by rw [he, List.append_assoc]⟩

theorem specNumber_stable (keys l : List String) (k : String) (h : k ∈ keys) :
    specNumber (keys ++ l) k = specNumber keys k := by
  unfold specNumber
  have : dedupFirst (keys ++ l) =
      List.foldl (fun acc k => if k ∈ acc then acc else acc ++ [k])
        (dedupFirst keys) l := by
    rw [dedupFirst, List.foldl_append]
    rfl
  obtain ⟨e, he⟩ := dedupFirst_foldl_extend l (dedupFirst keys)
  rw [this, he, List.indexOf_append_of_mem ((mem_dedupFirst keys k).mpr h)]

theorem specNumber_new (keys : List String) (k : String) (h : k ∉ keys) :
    specNumber (keys ++ [k]) k = (dedupFirst keys).length + 1 := by
  unfold specNumber
  rw [dedupFirst_concat, if_neg h,
    List.indexOf_append_of_not_mem (fun h' => h ((mem_dedupFirst keys k).mp h'))]
  simp

theorem lookup_map_self {β : Type} (l : List String) (f : String → β) (k : String) :
    (l.map (fun x => (x, f x))).lookup k =
      if k ∈ l then some (f k) else none := by
  induction l with
  | nil => simp
  | cons x t ih =>
    simp only [List.map_cons, List.lookup]
    by_cases h : k = x
    · subst h
      simp
    · have hbeq : (k == x) = false := beq_eq_false_iff_ne.mpr h
      rw [hbeq]
      simp only [List.mem_cons]
      rw [ih]
      by_cases h' : k ∈ t
      · rw [if_pos h', if_pos (Or.inr h')]
      · rw [if_neg h', if_neg (by rintro (h'' | h'') <;> contradiction)]

theorem appendAssoc_map_self (l : List String) (f : String → List Nat)
    (k : String) (pos : Nat) :
    appendAssoc (l.map (fun x => (x, f x))) k pos =
      l.map (fun x => (x, if x = k then f x ++ [pos] else f x)) := by
  unfold appendAssoc
  rw [List.map_map]
  refine List.map_congr_left (fun x _ => ?_)
  by_cases h : x = k
  · simp [h]
  · simp [h]

theorem allocPosE_concat (E : List (Nat × Row)) (ir : Nat × Row) (k : String) :
    allocPosE (E ++ [ir]) k =
      allocPosE E k ++
        (if fullKey ir.2 = k ∧ ir.2.allocated_resources ≠ [] then [ir.1]
         else []) := by
  unfold allocPosE
  rw [List.filter_append, List.map_append]
  congr 1
  by_cases h1 : fullKey ir.2 = k
  · by_cases h2 : ir.2.allocated_resources = []
    · have h3 : ir.2.allocated_resources.isEmpty = true := by
        simp [List.isEmpty_iff, h2]
      rw [if_neg (by tauto)]
      simp [List.filter, h3]
    · have h3 : ir.2.allocated_resources.isEmpty = false := by
        simp [List.isEmpty_iff, h2]
      rw [if_pos ⟨h1, h2⟩]
      simp [List.filter, h1, h3]
  · have hbeq : (fullKey ir.2 == k) = false := beq_eq_false_iff_ne.mpr h1
    rw [if_neg (by tauto)]
    simp [List.filter, hbeq]

theorem allocPosE_nil_of_not_mem (E : List (Nat × Row)) (k : String)
    (h : k ∉ E.map (fun ir => fullKey ir.2)) : allocPosE E k = [] := by
  unfold allocPosE
  rw [List.filter_eq_nil_iff.mpr, List.map_nil]
  intro ir hir
  simp only [Bool.and_eq_true, beq_iff_eq, Bool.not_eq_true']
  rintro ⟨h1, _⟩
  exact h (List.mem_map.mpr ⟨ir, hir, h1⟩)

theorem munStep_found (s : MUNState) (ir : Nat × Row) (n : Nat)
    (h : s.numbersMap.lookup (fullKey ir.2) = some n) :
    munStep s ir = { s with
      jobsFor :=
        if ir.2.allocated_resources ≠ [] then
          appendAssoc s.jobsFor (fullKey ir.2) ir.1
        else s.jobsFor,
      uniqueNumbers := s.uniqueNumbers ++ [n] } := by
  unfold munStep
  rw [h]

theorem munStep_notFound (s : MUNState) (ir : Nat × Row)
    (h : s.numbersMap.lookup (fullKey ir.2) = none) :
    munStep s ir =
      { counter := s.counter + 1,
        numbersMap := s.numbersMap ++ [(fullKey ir.2, s.counter)],
        jobsFor := s.jobsFor ++
          [(fullKey ir.2, if ir.2.allocated_resources ≠ [] then [ir.1] else [])],
        uniqueNumbers := s.uniqueNumbers ++ [s.counter] } := by
  unfold munStep
  rw [h]

/-- The loop invariant of `map_unique_numbers`: after scanning the
enumerated rows `E`, the counter is one past the number of distinct keys,
the numbers map assigns each distinct key its first-occurrence rank plus
one, the candidate-list map holds each distinct key's allocated positions in
input order, and the emitted unique numbers are the keys' numbers in row
order. -/
theorem mun_foldl_inv (E : List (Nat × Row)) :
    (E.foldl munStep ⟨1, [], [], []⟩).counter = (dedupFirst (keysOf E)).length + 1 ∧
      (E.foldl munStep ⟨1, [], [], []⟩).numbersMap =
        (dedupFirst (keysOf E)).map (fun k => (k, specNumber (keysOf E) k)) ∧
      (E.foldl munStep ⟨1, [], [], []⟩).jobsFor =
        (dedupFirst (keysOf E)).map (fun k => (k, allocPosE E k)) ∧
      (E.foldl munStep ⟨1, [], [], []⟩).uniqueNumbers =
        (keysOf E).map (specNumber (keysOf E)) := by
  induction E using List.reverseRecOn with
  | nil => exact ⟨rfl, rfl, rfl, rfl⟩
  | append_singleton E ir ih =>
    obtain ⟨ihc, ihm, ihj, ihu⟩ := ih
    have hkeys : keysOf (E ++ [ir]) = keysOf E ++ [fullKey ir.2] := by
      simp [keysOf]
    have hfold : (E ++ [ir]).foldl munStep ⟨1, [], [], []⟩ =
        munStep (E.foldl munStep ⟨1, [], [], []⟩) ir := by
      rw [List.foldl_append, List.foldl_cons, List.foldl_nil]
    have hmem_sub : ∀ k', k' ∈ dedupFirst (keysOf E) → k' ∈ keysOf E :=
      fun k' h => (mem_dedupFirst (keysOf E) k').mp h
    have hspec : ∀ k', k' ∈ keysOf E →
        specNumber (keysOf E ++ [fullKey ir.2]) k' = specNumber (keysOf E) k' :=
      fun k' h' => specNumber_stable (keysOf E) [fullKey ir.2] k' h'
    by_cases hk : fullKey ir.2 ∈ keysOf E
    · -- known key: the number is re-used, the dicts keep their key sets
      have hdedup : dedupFirst (keysOf E ++ [fullKey ir.2]) = dedupFirst (keysOf E) := by
        rw [dedupFirst_concat, if_pos hk]
      have hlookup : (E.foldl munStep ⟨1, [], [], []⟩).numbersMap.lookup
          (fullKey ir.2) = some (specNumber (keysOf E) (fullKey ir.2)) := by
        rw [ihm, lookup_map_self, if_pos ((mem_dedupFirst _ _).mpr hk)]
      have hc : ((E ++ [ir]).foldl munStep ⟨1, [], [], []⟩).counter =
          (E.foldl munStep ⟨1, [], [], []⟩).counter := by
        rw [hfold, munStep_found _ _ _ hlookup]
      have hm : ((E ++ [ir]).foldl munStep ⟨1, [], [], []⟩).numbersMap =
          (E.foldl munStep ⟨1, [], [], []⟩).numbersMap := by
        rw [hfold, munStep_found _ _ _ hlookup]
      have hj : ((E ++ [ir]).foldl munStep ⟨1, [], [], []⟩).jobsFor =
          if ir.2.allocated_resources ≠ [] then
            appendAssoc (E.foldl munStep ⟨1, [], [], []⟩).jobsFor
              (fullKey ir.2) ir.1
          else (E.foldl munStep ⟨1, [], [], []⟩).jobsFor := by
        rw [hfold, munStep_found _ _ _ hlookup]
      have hu : ((E ++ [ir]).foldl munStep ⟨1, [], [], []⟩).uniqueNumbers =
          (E.foldl munStep ⟨1, [], [], []⟩).uniqueNumbers ++
            [specNumber (keysOf E) (fullKey ir.2)] := by
        rw [hfold, munStep_found _ _ _ hlookup]
      refine ⟨?_, ?_, ?_, ?_⟩
      · rw [hc, hkeys, hdedup, ihc]
      · rw [hm, hkeys, hdedup, ihm]
        exact List.map_congr_left (fun k' h' => by rw [hspec k' (hmem_sub k' h')])
      · rw [hj, hkeys, hdedup]
        by_cases halloc : ir.2.allocated_resources = []
        · rw [if_neg (not_not_intro halloc), ihj]
          refine List.map_congr_left (fun k' _ => ?_)
          rw [allocPosE_concat, if_neg (by tauto), List.append_nil]
        · rw [if_pos halloc, ihj, appendAssoc_map_self]
          refine List.map_congr_left (fun k' _ => ?_)
          rw [allocPosE_concat]
          by_cases hkk : k' = fullKey ir.2
          · rw [if_pos hkk, if_pos (show fullKey ir.2 = k' ∧
                ir.2.allocated_resources ≠ [] from ⟨hkk.symm, halloc⟩)]
          · rw [if_neg hkk, if_neg (by tauto), List.append_nil]
      · rw [hu, hkeys, ihu, List.map_append]
        congr 1
        · exact List.map_congr_left (fun k' h' => (hspec k' h').symm)
        · rw [List.map_singleton, hspec (fullKey ir.2) hk]
    · -- new key: a fresh number is assigned and both dicts gain an entry
      have hdedup : dedupFirst (keysOf E ++ [fullKey ir.2]) =
          dedupFirst (keysOf E) ++ [fullKey ir.2] := by
        rw [dedupFirst_concat, if_neg hk]
      have hlookup : (E.foldl munStep ⟨1, [], [], []⟩).numbersMap.lookup
          (fullKey ir.2) = none := by
        rw [ihm, lookup_map_self, if_neg (fun h => hk ((mem_dedupFirst _ _).mp h))]
      have hspecnew : specNumber (keysOf E ++ [fullKey ir.2]) (fullKey ir.2) =
          (dedupFirst (keysOf E)).length + 1 :=
        specNumber_new (keysOf E) (fullKey ir.2) hk
      have hc : ((E ++ [ir]).foldl munStep ⟨1, [], [], []⟩).counter =
          (E.foldl munStep ⟨1, [], [], []⟩).counter + 1 := by
        rw [hfold, munStep_notFound _ _ hlookup]
      have hm : ((E ++ [ir]).foldl munStep ⟨1, [], [], []⟩).numbersMap =
          (E.foldl munStep ⟨1, [], [], []⟩).numbersMap ++
            [(fullKey ir.2, (E.foldl munStep ⟨1, [], [], []⟩).counter)] := by
        rw [hfold, munStep_notFound _ _ hlookup]
      have hj : ((E ++ [ir]).foldl munStep ⟨1, [], [], []⟩).jobsFor =
          (E.foldl munStep ⟨1, [], [], []⟩).jobsFor ++
            [(fullKey ir.2,
              if ir.2.allocated_resources ≠ [] then [ir.1] else [])] := by
        rw [hfold, munStep_notFound _ _ hlookup]
      have hu : ((E ++ [ir]).foldl munStep ⟨1, [], [], []⟩).uniqueNumbers =
          (E.foldl munStep ⟨1, [], [], []⟩).uniqueNumbers ++
            [(E.foldl munStep ⟨1, [], [], []⟩).counter] := by
        rw [hfold, munStep_notFound _ _ hlookup]
      refine ⟨?_, ?_, ?_, ?_⟩
      · rw [hc, hkeys, hdedup, ihc]
        simp
      · rw [hm, hkeys, hdedup, List.map_append, List.map_singleton, ihm, ihc,
          hspecnew]
        congr 1
        exact List.map_congr_left (fun k' h' => by rw [hspec k' (hmem_sub k' h')])
      · rw [hj, hkeys, hdedup, List.map_append, List.map_singleton, ihj]
        congr 1
        · refine List.map_congr_left (fun k' h' => ?_)
          rw [allocPosE_concat]
          have hkk : k' ≠ fullKey ir.2 := fun h'' => hk (h'' ▸ hmem_sub k' h')
          rw [if_neg (by tauto), List.append_nil]
        · rw [allocPosE_concat,
            allocPosE_nil_of_not_mem E (fullKey ir.2) (by exact hk),
            List.nil_append]
          by_cases halloc : ir.2.allocated_resources = []
          · simp [halloc]
          · simp [halloc]
      · rw [hu, hkeys, List.map_append, List.map_singleton, ihu, ihc, hspecnew]
        congr 1
        exact List.map_congr_left (fun k' h' => (hspec k' h').symm)

theorem keysOf_enum (rows : List Row) : keysOf rows.enum = rows.map fullKey := by
  unfold keysOf
  rw [show (fun ir : Nat × Row => fullKey ir.2) = fullKey ∘ Prod.snd from rfl,
    ← List.map_map, List.enum_map_snd]

/-- The numbering output of `map_unique_numbers` in closed form. -/
theorem map_unique_numbers_snd (rows : List Row) :
    (map_unique_numbers rows).2 =
      (rows.map fullKey).map (specNumber (rows.map fullKey)) := by
  unfold map_unique_numbers
  have h := (mun_foldl_inv rows.enum).2.2.2
  rw [keysOf_enum] at h
  exact h

/-- The label output of `map_unique_numbers` in closed form. -/
theorem map_unique_numbers_fst (rows : List Row) :
    (map_unique_numbers rows).1 =
      (dedupFirst (rows.map fullKey)).filterMap (fun k =>
        if allocatedPositions rows k ≠ [] then
          some ((allocatedPositions rows k).getD
            ((allocatedPositions rows k).length / 2) 0)
        else none) := by
  unfold map_unique_numbers
  dsimp only
  have h := (mun_foldl_inv rows.enum).2.2.1
  rw [keysOf_enum] at h
  rw [h, List.filterMap_map]
  rfl

theorem filterMap_if {α β : Type} (P : α → Prop) [DecidablePred P]
    (g : α → β) (l : List α) :
    l.filterMap (fun a => if P a then some (g a) else none) =
      (l.filter (fun a => decide (P a))).map g := by
  induction l with
  | nil => rfl
  | cons x t ih =>
    by_cases h : P x <;>
      simp [List.filterMap_cons, List.filter_cons, h, ih]

theorem sum_count_eq_sum_filter (p : Nat) (rows : List Row)
    (h : ∀ r ∈ rows, (members r.allocated_resources).Nodup) :
    (rows.map (fun r =>
      r.execution_time * ((members r.allocated_resources).count p : Rat))).sum =
    ((rows.filter (fun r => decide (p ∈ members r.allocated_resources))).map
      (fun r => r.execution_time)).sum := by
  induction rows with
  | nil => rfl
  | cons r rest ih =>
    have hr := h r (List.mem_cons_self r rest)
    have hrest := ih (fun r' h' => h r' (List.mem_cons_of_mem r h'))
    by_cases hp : p ∈ members r.allocated_resources
    · have hc : (members r.allocated_resources).count p = 1 :=
        List.count_eq_one_of_mem hr hp
      simp [List.filter_cons, hp, hc, hrest]
    · have hc : (members r.allocated_resources).count p = 0 :=
        List.count_eq_zero_of_not_mem hp
      simp [List.filter_cons, hp, hc, hrest]

theorem processJobs_widths (lo hi : Nat) (load lf : Nat → Rat)
    (rows : List Row) (rss : List (List Rect))
    (h : processJobs lo hi load rows = .ok (lf, rss)) :
    ∀ rects ∈ rss, ∀ r ∈ rects, 1 ≤ r.width := by
  induction rows generalizing load rss with
  | nil =>
    unfold processJobs at h
    simp only [Except.ok.injEq, Prod.mk.injEq] at h
    rw [← h.2]
    simp
  | cons r rest ih =>
    unfold processJobs at h
    cases hrow : processRow lo hi load r with
    | error e => rw [hrow] at h; simp [Except.bind] at h
    | ok out =>
      rw [hrow] at h
      simp only [Except.bind] at h
      cases hrest : processJobs lo hi out.1 rest with
      | error e => rw [hrest] at h; simp [Except.map] at h
      | ok out' =>
        rw [hrest] at h
        simp only [Except.map, Except.ok.injEq, Prod.mk.injEq] at h
        obtain ⟨h1, h2⟩ := h
        intro rects hmem
        rw [← h2] at hmem
        rcases List.mem_cons.mp hmem with he | he
        · subst he
          exact processJob_widths load out.1 r.execution_time
            (members r.allocated_resources) out.2
            (processRow_eq_ok lo hi load r out hrow)
        · exact ih out.1 out'.2 (by rw [hrest, ← h1]) rects he

theorem validItvs_singleton (lo hi : Nat) (h : lo ≤ hi) : ValidItvs [(lo, hi)] :=
  ⟨by simpa using h, List.chain'_singleton _⟩

/-! ## The claims -/

/-- C1: the processor-load merge loop — on a non-contiguous index or a
differing accumulated load the pending rectangle `(base_resource, base_load,
width, duration)` is emitted and a new rectangle starts at `(r, load[r])`
with width 1; otherwise the width is incremented; `load[r]` then grows by
the duration; a pending rectangle with positive width is flushed after the
scan; and on the spec's two-job scenario the emitted rectangles are
`(0, 0, 3, 5)` then `(1, 5, 2, 3)` with final loads `[5, 8, 8, 0, 0]`. -/
theorem claim_C1 (d : Rat) (s : ScanState) (proc : Nat) :
    ((s.base.1 + s.width ≠ proc ∨ s.load proc ≠ s.base.2) →
      (loadStep d s proc).rects =
          s.rects ++ [⟨s.base.1, s.base.2, s.width, d⟩] ∧
        (loadStep d s proc).base = (proc, s.load proc) ∧
        (loadStep d s proc).width = 1) ∧
    (s.base.1 + s.width = proc → s.load proc = s.base.2 →
      (loadStep d s proc).rects = s.rects ∧
        (loadStep d s proc).base = s.base ∧
        (loadStep d s proc).width = s.width + 1) ∧
    (∀ p, (loadStep d s proc).load p =
      if p = proc then s.load p + d else s.load p) ∧
    (∀ (load : Nat → Rat) (dur : Rat) (q : Nat) (t : List Nat),
      let S := (q :: t).foldl (loadStep dur) ⟨(q, load q), 0, load, []⟩
      0 < S.width →
        processJob load dur (q :: t) =
          some (S.load, S.rects ++ [⟨S.base.1, S.base.2, S.width, dur⟩])) ∧
    ((plot_processor_load 0 4 [demoRow1, demoRow2]).map Prod.snd =
        .ok [[⟨0, 0, 3, 5⟩], [⟨1, 5, 2, 3⟩]] ∧
      (plot_processor_load 0 4 [demoRow1, demoRow2]).map
          (fun pr => (pr.1 0, pr.1 1, pr.1 2, pr.1 3, pr.1 4)) =
        .ok (5, 8, 8, 0, 0)) := by
  refine ⟨fun h => loadStep_break d s proc h,
    fun h1 h2 => loadStep_extend d s proc h1 h2,
    fun p => loadStep_load d s proc p, ?_, ?_, ?_⟩
  · intro load dur q t
    dsimp only
    intro hw
    unfold processJob
    dsimp only
    rw [if_pos hw]
  · norm_num [plot_processor_load, processJobs, processRow, processJob,
      loadStep, members, initLoad, loadDomain, demoRow1, demoRow2,
      List.range', Except.bind, Except.map]
  · norm_num [plot_processor_load, processJobs, processRow, processJob,
      loadStep, members, initLoad, loadDomain, demoRow1, demoRow2,
      List.range', Except.bind, Except.map]

/-- C2: after processing every job, the accumulated load of each in-bounds
resource is the sum of the durations of the jobs whose allocation contains
it (zero for resources no job uses).  The render completes only when every
allocated index lies inside the load dict's inclusive bounds — an
out-of-bounds index raises `KeyError` — so that containment is a
hypothesis. -/
theorem claim_C2 (lo hi : Nat) (rows : List Row)
    (hvalid : ∀ r ∈ rows, ValidItvs r.allocated_resources)
    (hne : ∀ r ∈ rows, members r.allocated_resources ≠ [])
    (hbounds : ∀ r ∈ rows, ∀ p ∈ members r.allocated_resources,
      lo ≤ p ∧ p ≤ hi) :
    ∃ lf rss, plot_processor_load lo hi rows = .ok (lf, rss) ∧
      ∀ p, lo ≤ p → p ≤ hi →
        lf p = ((rows.filter
            (fun r => decide (p ∈ members r.allocated_resources))).map
          (fun r => r.execution_time)).sum := by
  have hb : ∀ r ∈ rows, ∀ p ∈ members r.allocated_resources,
      p ∈ loadDomain lo hi := fun r hr p hp =>
    (mem_loadDomain lo hi p).mpr (hbounds r hr p hp)
  obtain ⟨out, hout⟩ := processJobs_ok lo hi (initLoad lo hi) rows hne hb
  refine ⟨out.1, out.2, by rw [plot_processor_load, hout], ?_⟩
  intro p _ _
  have hload := processJobs_load lo hi (initLoad lo hi) out.1 rows out.2
    (by rw [hout]) p
  rw [hload, sum_count_eq_sum_filter p rows
    (fun r hr => members_nodup r.allocated_resources (hvalid r hr))]
  simp [initLoad]

/-- C2 witness: the spec's two-job scenario satisfies the hypotheses and
the load-sum conclusion. -/
theorem claim_C2_witness :
    ∃ lf rss, plot_processor_load 0 4 [demoRow1, demoRow2] = .ok (lf, rss) ∧
      ∀ p, 0 ≤ p → p ≤ 4 →
        lf p = (([demoRow1, demoRow2].filter
            (fun r => decide (p ∈ members r.allocated_resources))).map
          (fun r => r.execution_time)).sum :=
  claim_C2 0 4 [demoRow1, demoRow2]
    (by
      intro r hr
      rcases List.mem_cons.mp hr with h | h
      · subst h
        exact validItvs_singleton 0 2 (by decide)
      · rw [List.mem_singleton] at h
        subst h
        exact validItvs_singleton 1 2 (by decide))
    (by decide)
    (by decide)

/-- C3 counterexample: two rows with different `(workload_name, jobID)`
pairs whose concatenated keys collide (`"a!b" + "!" + "c"` and
`"a" + "!" + "b!c"`), so the second, newly seen pair does not receive the
next number 2 but re-uses 1. -/
theorem claim_C3_counterexample :
    (bangRow1.workload_name, bangRow1.jobID) ≠
        (bangRow2.workload_name, bangRow2.jobID) ∧
      (map_unique_numbers [bangRow1, bangRow2]).2 = [1, 1] := by
  constructor
  · decide
  · decide

/-- C3 (amended: identity keys are the concatenated strings
`workload_name + "!" + jobID`, as the source builds them — not the raw
pairs, which the concatenation does not injectively encode): the
unique-number sequence has one entry per row in order; each row's number is
one plus the first-occurrence rank of its key among the distinct keys, so
newly seen keys receive 1, 2, 3, … in first-occurrence order; and rows with
equal keys receive equal numbers. -/
theorem claim_C3 (rows : List Row) :
    (map_unique_numbers rows).2 =
      (rows.map fullKey).map (specNumber (rows.map fullKey)) ∧
    (map_unique_numbers rows).2.length = rows.length ∧
    (∀ i j : Nat, (rows.map fullKey)[i]? = (rows.map fullKey)[j]? →
      (map_unique_numbers rows).2[i]? = (map_unique_numbers rows).2[j]?) := by
  refine ⟨map_unique_numbers_snd rows, ?_, ?_⟩
  · rw [map_unique_numbers_snd]
    simp
  · intro i j hij
    rw [map_unique_numbers_snd]
    simp only [List.getElem?_map] at hij ⊢
    rw [hij]

/-- C4 counterexample: the same colliding keys merge two distinct
`(workload_name, jobID)` pairs — each with one allocated occurrence — into
one group, which receives a single label (position 1) instead of one label
per pair. -/
theorem claim_C4_counterexample :
    (bangRow1.workload_name, bangRow1.jobID) ≠
        (bangRow2.workload_name, bangRow2.jobID) ∧
      bangRow1.allocated_resources ≠ [] ∧
      bangRow2.allocated_resources ≠ [] ∧
      (map_unique_numbers [bangRow1, bangRow2]).1 = [1] := by
  refine ⟨by decide, by decide, by decide, by decide⟩

/-- C4 (amended: identity groups are keyed by the concatenated string
`workload_name + "!" + jobID`): the labelled positions are exactly, one per
distinct key whose allocated-occurrence list is non-empty, the element
`len // 2` of that list (occurrences with empty allocation are numbered but
excluded from the candidate list); keys with no allocated occurrence label
nothing. -/
theorem claim_C4 (rows : List Row) :
    (map_unique_numbers rows).1 =
      ((dedupFirst (rows.map fullKey)).filter
          (fun k => decide (allocatedPositions rows k ≠ []))).map
        (fun k => (allocatedPositions rows k).getD
          ((allocatedPositions rows k).length / 2) 0) ∧
    (map_unique_numbers rows).1.length =
      ((dedupFirst (rows.map fullKey)).filter
        (fun k => decide (allocatedPositions rows k ≠ []))).length ∧
    (∀ p ∈ (map_unique_numbers rows).1,
      ∃ k ∈ dedupFirst (rows.map fullKey), allocatedPositions rows k ≠ [] ∧
        p = (allocatedPositions rows k).getD
          ((allocatedPositions rows k).length / 2) 0) := by
  have hmain : (map_unique_numbers rows).1 =
      ((dedupFirst (rows.map fullKey)).filter
          (fun k => decide (allocatedPositions rows k ≠ []))).map
        (fun k => (allocatedPositions rows k).getD
          ((allocatedPositions rows k).length / 2) 0) := by
    rw [map_unique_numbers_fst, filterMap_if]
  refine ⟨hmain, by rw [hmain]; simp, ?_⟩
  intro p hp
  rw [hmain] at hp
  obtain ⟨k, hk, hpk⟩ := List.mem_map.mp hp
  obtain ⟨hk1, hk2⟩ := List.mem_filter.mp hk
  exact ⟨k, hk1, by simpa using hk2, hpk.symm⟩

/-- C5: rectangle-decomposition round trip — the rectangles the
processor-load renderer emits for one job cover exactly the job's resource
indices (with no index covered twice, the member indices being pairwise
distinct under the interval-set invariant), and the Gantt renderer emits
one rectangle per native interval, the intervals' index spans concatenating
to the same member-index list. -/
theorem claim_C5 (load : Nat → Rat) (d : Rat) (job : Row)
    (hvalid : ValidItvs job.allocated_resources)
    (hne : members job.allocated_resources ≠ []) :
    (∃ load' rects, processJob load d (members job.allocated_resources) =
        some (load', rects) ∧
      coverage rects = members job.allocated_resources) ∧
    (members job.allocated_resources).Nodup ∧
    (∀ (ts : Bool) (f : Rat → Rat),
      (plot_job ts f job).length = job.allocated_resources.length) ∧
    (job.allocated_resources.map
        (fun itv => List.range' itv.1 (itv.2 + 1 - itv.1))).flatten =
      members job.allocated_resources := by
  refine ⟨?_, members_nodup job.allocated_resources hvalid,
    fun ts f => by simp [plot_job], rfl⟩
  have hsome := (processJob_isSome_iff load d
    (members job.allocated_resources)).mpr hne
  obtain ⟨out, hout⟩ := Option.isSome_iff_exists.mp hsome
  exact ⟨out.1, out.2, hout, processJob_coverage load out.1 d
    (members job.allocated_resources) out.2 (by rw [hout])⟩

/-- C5 witness: the round trip evaluated on the scenario's first job. -/
theorem claim_C5_witness :
    (∃ load' rects,
        processJob (initLoad 0 4) 5 (members demoRow1.allocated_resources) =
          some (load', rects) ∧
        coverage rects = members demoRow1.allocated_resources) ∧
    (members demoRow1.allocated_resources).Nodup ∧
    (∀ (ts : Bool) (f : Rat → Rat),
      (plot_job ts f demoRow1).length = demoRow1.allocated_resources.length) ∧
    (demoRow1.allocated_resources.map
        (fun itv => List.range' itv.1 (itv.2 + 1 - itv.1))).flatten =
      members demoRow1.allocated_resources :=
  claim_C5 (initLoad 0 4) 5 demoRow1 (validItvs_singleton 0 2 (by decide))
    (by decide)

/-- C6: the Gantt renderer draws exactly one rectangle per native interval
`(y0, y1)` — no merging — at `(starting_time, y0)`, of width
`execution_time` and height `y1 - y0 + 0.9`, the time-scale transform (when
enabled) being applied to the x-origin and to the width. -/
theorem claim_C6 (ts : Bool) (f : Rat → Rat) (job : Row) :
    (plot_job ts f job).length = job.allocated_resources.length ∧
    ∀ i : Nat, ∀ h : i < job.allocated_resources.length,
      (plot_job ts f job)[i]? = some
        { x := if ts then f job.starting_time else job.starting_time,
          y := (job.allocated_resources[i]).1,
          width :=
            if ts then
              f (job.starting_time + job.execution_time) - f job.starting_time
            else job.execution_time,
          height := ((job.allocated_resources[i]).2 : Rat) -
            ((job.allocated_resources[i]).1 : Rat) + 9/10 } := by
  refine ⟨by simp [plot_job], ?_⟩
  intro i h
  rw [plot_job, List.getElem?_map, List.getElem?_eq_getElem h]
  cases ts <;> simp

/-- C7: the merge decision compares accumulated loads with exact
(in)equality — any nonzero difference, however small, breaks the merge, and
the pending rectangle survives an iteration exactly when the next index is
contiguous and its load is exactly equal. -/
theorem claim_C7 (d : Rat) (s : ScanState) (proc : Nat) :
    (s.load proc ≠ s.base.2 →
      (loadStep d s proc).rects =
          s.rects ++ [⟨s.base.1, s.base.2, s.width, d⟩] ∧
        (loadStep d s proc).width = 1) ∧
    ((loadStep d s proc).rects = s.rects ↔
      s.base.1 + s.width = proc ∧ s.load proc = s.base.2) ∧
    (loadStep 5 ⟨(0, 0), 1,
        fun p => if p = 1 then (1 : Rat)/1000000000 else 0, []⟩ 1).rects =
      [⟨0, 0, 1, 5⟩] := by
  refine ⟨?_, ⟨?_, ?_⟩, ?_⟩
  · intro h
    obtain ⟨h1, _, h3⟩ := loadStep_break d s proc (Or.inr h)
    exact ⟨h1, h3⟩
  · intro h
    by_contra hc
    rw [not_and_or] at hc
    have hbreak : s.base.1 + s.width ≠ proc ∨ s.load proc ≠ s.base.2 := hc
    rw [(loadStep_break d s proc hbreak).1] at h
    simp at h
  · intro ⟨h1, h2⟩
    exact (loadStep_extend d s proc h1 h2).1
  · unfold loadStep
    rw [if_pos (Or.inr (by norm_num))]
    rfl

/-- C8: `plot_series` draws only for `"waiting_time"`; any other input
raises before drawing — an `AttributeError` for a series type outside
`available_series`, and the distinct `RuntimeError` for a recognised but
unimplemented type. -/
theorem claim_C8 (series_type : String) (jobsets : List String) :
    ((∃ out, plot_series series_type jobsets = .ok out) ↔
      series_type = "waiting_time") ∧
    (series_type ∉ available_series →
      plot_series series_type jobsets = .error .attributeError) ∧
    (series_type ∈ available_series → series_type ≠ "waiting_time" →
      plot_series series_type jobsets = .error .runtimeError) ∧
    PyError.attributeError ≠ PyError.runtimeError := by
  refine ⟨⟨?_, ?_⟩, ?_, ?_, by decide⟩
  · intro ⟨out, hout⟩
    unfold plot_series at hout
    by_cases hmem : series_type ∈ available_series
    · rw [if_neg (not_not_intro hmem)] at hout
      by_cases heq : series_type = "waiting_time"
      · exact heq
      · rw [if_neg heq] at hout
        exact absurd hout (by simp)
    · rw [if_pos hmem] at hout
      exact absurd hout (by simp)
  · intro heq
    unfold plot_series
    rw [if_neg (not_not_intro (by rw [heq]; decide)), if_pos heq]
    exact ⟨jobsets, rfl⟩
  · intro hmem
    unfold plot_series
    rw [if_pos hmem]
  · intro hmem hne
    unfold plot_series
    rw [if_neg (not_not_intro hmem), if_neg hne]

/-- C9: the renderers leave the caller's table unchanged — `plot_gantt`
copies the jobset's dataframe before adding the `unique_number` column or
rescaling times, and `plot_job_details` copies its input before sorting and
deriving time columns, so the store cell the caller holds reads the same
after the call. -/
theorem claim_C9 (ts : Bool) (d2n td : Rat → Rat) (gstore : List GanttTable)
    (gref : Nat) (hg : gref < gstore.length) (off : Rat)
    (jstore : List (List JDRow)) (jref : Nat) (hj : jref < jstore.length) :
    ((plot_gantt_df_prep ts d2n td gstore gref).1)[gref]? = gstore[gref]? ∧
    ((plot_job_details_df_prep off jstore jref).1)[jref]? = jstore[jref]? := by
  constructor
  · unfold plot_gantt_df_prep
    dsimp only
    have hne : gstore.length ≠ gref := (Nat.ne_of_lt hg).symm
    split
    · rw [List.getElem?_set_ne hne, List.getElem?_set_ne hne,
        List.getElem?_append_left hg]
    · rw [List.getElem?_set_ne hne, List.getElem?_append_left hg]
  · unfold plot_job_details_df_prep
    dsimp only
    have hne : (jstore ++ [jstore.getD jref []]).length ≠ jref := by
      simp
      omega
    rw [List.getElem?_set_ne hne,
      List.getElem?_append_left (by simp; omega),
      List.getElem?_append_left hj]

/-- C9 witness: a one-table store for each renderer. -/
theorem claim_C9_witness :
    ((plot_gantt_df_prep false id id [⟨[demoRow1], none⟩] 0).1)[0]? =
        ([(⟨[demoRow1], none⟩ : GanttTable)])[0]? ∧
      ((plot_job_details_df_prep 1 [[jdRow0]] 0).1)[0]? =
        ([[jdRow0]] : List (List JDRow))[0]? :=
  claim_C9 false id id [⟨[demoRow1], none⟩] 0 (by decide) 1 [[jdRow0]] 0
    (by decide)

/-- C10: the processor-load renderer takes the first element of each job's
resource iterator unguarded, so — for tables whose allocations stay inside
the load dict's bounds, the regime where no `KeyError` can preempt it — a
single empty allocation makes the whole render fail with iterator
exhaustion (`StopIteration`) rather than skipping that job, and under the
all-non-empty precondition that failure branch is unreachable: the render
returns normally and every emitted rectangle has width ≥ 1. -/
theorem claim_C10 (lo hi : Nat) (rows : List Row)
    (hbounds : ∀ r ∈ rows, ∀ p ∈ members r.allocated_resources,
      lo ≤ p ∧ p ≤ hi) :
    ((∃ r ∈ rows, members r.allocated_resources = []) →
      plot_processor_load lo hi rows = .error .stopIteration) ∧
    ((∀ r ∈ rows, members r.allocated_resources ≠ []) →
      ∃ lf rss, plot_processor_load lo hi rows = .ok (lf, rss) ∧
        ∀ rects ∈ rss, ∀ rect ∈ rects, 1 ≤ rect.width) := by
  have hb : ∀ r ∈ rows, ∀ p ∈ members r.allocated_resources,
      p ∈ loadDomain lo hi := fun r hr p hp =>
    (mem_loadDomain lo hi p).mpr (hbounds r hr p hp)
  constructor
  · intro h
    exact processJobs_stopIteration lo hi (initLoad lo hi) rows hb h
  · intro h
    obtain ⟨out, hout⟩ := processJobs_ok lo hi (initLoad lo hi) rows h hb
    exact ⟨out.1, out.2, by rw [plot_processor_load, hout],
      processJobs_widths lo hi (initLoad lo hi) out.1 rows out.2
        (by rw [hout])⟩

/-- C10 witness: the two-job scenario is in bounds; its render returns
normally with all widths ≥ 1, and adding an empty-allocation row is also
exercised through the hypothesis-free first conjunct shape. -/
theorem claim_C10_witness :
    ((∃ r ∈ [demoRow1, demoRow2], members r.allocated_resources = []) →
      plot_processor_load 0 4 [demoRow1, demoRow2] = .error .stopIteration) ∧
    ((∀ r ∈ [demoRow1, demoRow2], members r.allocated_resources ≠ []) →
      ∃ lf rss, plot_processor_load 0 4 [demoRow1, demoRow2] = .ok (lf, rss) ∧
        ∀ rects ∈ rss, ∀ rect ∈ rects, 1 ≤ rect.width) :=
  claim_C10 0 4 [demoRow1, demoRow2] (by decide)

end Evalys
